import Mathlib

/-
Shallow embedding of the Quant_Pricer repository (discount curve, Black-76
closed-form pricer, Monte Carlo engine, yield solver, sensitivity engine),
with theorems settling the specification claims against the code.

C++ doubles are modelled as real numbers; at validation boundaries, where the
code distinguishes finite from non-finite (NaN/Inf) inputs, a double is
modelled by the type `Dbl` below.  Fallible operations return `Except QErr`.
-/

noncomputable section

namespace Quant

/-- Error kinds surfaced by the library: std::invalid_argument and the
std::runtime_error thrown by the yield solver when no root is bracketed. -/
inductive QErr
  | invalidArgument
  | rootNotBracketed
deriving DecidableEq

/-- Model of a C++ double at a validation boundary: either a finite real
number or a non-finite value (NaN or an infinity).  The code only ever
branches on non-finiteness via isnan and isinf, never on the kind of
non-finite value, so one constructor suffices. -/
inductive Dbl
  | fin (x : ℝ)
  | nonfinite

/-- Real value of a finite `Dbl` (0 for a non-finite value, never used). -/
def Dbl.val : Dbl → ℝ
  | .fin x => x
  | .nonfinite => 0

/-- Whether the modelled double is finite. -/
def Dbl.isFinite : Dbl → Bool
  | .fin _ => true
  | .nonfinite => false

/-- Models the validation `v <= 0.0 || std::isnan(v) || std::isinf(v)` used
for quote components in the bootstrapped constructor. -/
def Dbl.bad : Dbl → Bool
  | .fin x => decide (x ≤ 0)
  | .nonfinite => true

/-- Compounding conventions (enum class Compounding in DiscountCurve.hpp). -/
inductive Compounding
  | Annual
  | Semi
  | Quarterly
  | Monthly
  | Continuous
deriving DecidableEq

/-- The numeric enum value, as produced by static_cast to double in the
code: Annual = 1, Semi = 2, Quarterly = 4, Monthly = 12, Continuous = 0. -/
def Compounding.mval : Compounding → ℝ
  | .Annual => 1
  | .Semi => 2
  | .Quarterly => 4
  | .Monthly => 12
  | .Continuous => 0

/-- Day count conventions (enum class DayCount in DayCount.hpp); the field
is stored but unused by DiscountCurve. -/
inductive DayCount
  | ACT_365F
  | THIRTY_360
deriving DecidableEq

/-- struct ZeroQuote: time in years and discount factor. -/
structure ZeroQuote where
  time : ℝ
  df : ℝ

/-- State of class DiscountCurve: flat yield y_, compounding m_, day count
dc_, and the bootstrapped quote table boot_ (empty means flat mode). -/
structure DiscountCurve where
  y : ℝ
  m : Compounding
  dc : DayCount
  boot : List ZeroQuote

/-- Insert a quote into a time-sorted quote list (helper for the model of
std::sort in the bootstrapped constructor). -/
def insertQuote (q : ZeroQuote) : List ZeroQuote → List ZeroQuote
  | [] => [q]
  | p :: ps => if q.time ≤ p.time then q :: p :: ps else p :: insertQuote q ps

/-- Model of `std::sort(boot_.begin(), boot_.end(), time <)`: a permutation
of the input sorted by nondecreasing time (insertion sort). -/
def sortQuotes : List ZeroQuote → List ZeroQuote
  | [] => []
  | q :: qs => insertQuote q (sortQuotes qs)

/-- Flat constructor DiscountCurve(double flatYield, Compounding, DayCount):
rejects a non-finite yield, stores the scalars, leaves boot_ empty. -/
def mkFlat (flatYield : Dbl) (cmp : Compounding) (dc : DayCount) :
    Except QErr DiscountCurve :=
  match flatYield with
  | .nonfinite => .error .invalidArgument
  | .fin x => .ok ⟨x, cmp, dc, []⟩

/-- Bootstrapped constructor DiscountCurve(span of ZeroQuote): rejects an
empty quote list, rejects any quote whose time or discount factor is
non-finite or non-positive, then stores the quotes sorted by time. -/
def mkBootstrapped (quotes : List (Dbl × Dbl)) : Except QErr DiscountCurve :=
  if quotes.isEmpty then .error .invalidArgument
  else if quotes.any (fun q => q.1.bad || q.2.bad) then .error .invalidArgument
  else .ok ⟨0, .Continuous, .ACT_365F,
    sortQuotes (quotes.map (fun q => ⟨q.1.val, q.2.val⟩))⟩

/-- Index returned by std::lower_bound over the quote table with the
comparator `a.time < t`: the first index whose time is not below t (the
list length when every time is below t).  On the sorted tables produced by
construction this coincides with binary search. -/
def lowerBound (t : ℝ) : List ZeroQuote → ℕ
  | [] => 0
  | q :: qs => if q.time < t then lowerBound t qs + 1 else 0

/-- Bootstrapped-mode branch of DiscountCurve::df for a finite time t:
t ≤ 0 returns 1; before the first quote and after the last quote the
boundary discount factor is used; otherwise the two neighbouring quotes are
interpolated, log-linearly when both factors are positive, linearly as a
defensive fallback otherwise. -/
def bootDfVal (qs : List ZeroQuote) (t : ℝ) : ℝ :=
  if t ≤ 0 then 1
  else
    let i := lowerBound t qs
    if i = 0 then (qs.getD 0 ⟨0, 0⟩).df
    else if i = qs.length then (qs.getD (qs.length - 1) ⟨0, 0⟩).df
    else
      let p := qs.getD (i - 1) ⟨0, 0⟩
      let q := qs.getD i ⟨0, 0⟩
      if p.df ≤ 0 ∨ q.df ≤ 0 then
        if q.time = p.time then p.df
        else p.df + ((t - p.time) / (q.time - p.time)) * (q.df - p.df)
      else
        if q.time = p.time then p.df
        else Real.exp (Real.log p.df +
          ((t - p.time) / (q.time - p.time)) * (Real.log q.df - Real.log p.df))

/-- Flat-mode branch of DiscountCurve::df for a finite time t: t ≤ 0
returns 1; continuous compounding gives exp(-y t); a discrete convention
with m periods per year gives (1 + y/m)^(-m t), with a defensive
continuous fallback if the cast enum value were 0. -/
def flatDfVal (y : ℝ) (m : Compounding) (t : ℝ) : ℝ :=
  if t ≤ 0 then 1
  else if m = .Continuous then Real.exp (-y * t)
  else if m.mval = 0 then Real.exp (-y * t)
  else (1 + y / m.mval) ^ (-(m.mval * t))

/-- DiscountCurve::df: rejects a non-finite time, then dispatches on the
mode (boot_ non-empty means bootstrapped). -/
def DiscountCurve.df (c : DiscountCurve) (t : Dbl) : Except QErr ℝ :=
  match t with
  | .nonfinite => .error .invalidArgument
  | .fin x =>
    if c.boot.isEmpty then .ok (flatDfVal c.y c.m x)
    else .ok (bootDfVal c.boot x)

namespace Black76

/-- The error function as computed by std::erf. -/
def erf (x : ℝ) : ℝ := 2 / Real.sqrt Real.pi * ∫ t in (0:ℝ)..x, Real.exp (-t^2)

/-- Black76::normCDF: standard normal CDF via the error function. -/
def normCDF (x : ℝ) : ℝ := 0.5 * (1 + erf (x / Real.sqrt 2))

/-- Black76::normPDF: standard normal density. -/
def normPDF (x : ℝ) : ℝ := 1 / Real.sqrt (2 * Real.pi) * Real.exp (-0.5 * x * x)

/-- Black76::d1. -/
def d1 (F K T σ : ℝ) : ℝ := (Real.log (F / K) + 0.5 * σ * σ * T) / (σ * Real.sqrt T)

/-- Black76::d2. -/
def d2 (F K T σ : ℝ) : ℝ := d1 F K T σ - σ * Real.sqrt T

/-- Black76::price. -/
def price (F K T σ D : ℝ) (isCall : Bool) : ℝ :=
  if T ≤ 0 ∨ σ ≤ 0 then
    if isCall then D * max (F - K) 0 else D * max (K - F) 0
  else if isCall then D * (F * normCDF (d1 F K T σ) - K * normCDF (d2 F K T σ))
  else D * (K * normCDF (-(d2 F K T σ)) - F * normCDF (-(d1 F K T σ)))

/-- Black76::vega. -/
def vega (F K T σ D : ℝ) : ℝ :=
  if T ≤ 0 ∨ σ ≤ 0 then 0
  else D * F * normPDF (d1 F K T σ) * Real.sqrt T

/-- Black76::delta. -/
def delta (F K T σ D : ℝ) (isCall : Bool) : ℝ :=
  if T ≤ 0 ∨ σ ≤ 0 then
    if isCall then D * (if K < F then 1 else 0) else D * (if F < K then -1 else 0)
  else if isCall then D * normCDF (d1 F K T σ)
  else -D * normCDF (-(d1 F K T σ))

end Black76

namespace MonteCarlo

/-- enum class OptionType in MonteCarlo.hpp. -/
inductive OptionType
  | Call
  | Put
deriving DecidableEq

/-- MonteCarlo::payoff. -/
def payoff (FT K : ℝ) (tp : OptionType) : ℝ :=
  match tp with
  | .Call => max (FT - K) 0
  | .Put => max (K - FT) 0

/-- struct MonteCarlo::Config. -/
structure Config where
  batchSize : ℕ
  useAntithetic : Bool
  randomSeed : ℤ
  enableVectorization : Bool

/-- The default-constructed Config: batch size 8000, antithetic variates on,
seed 42, vectorization on. -/
def Config.default : Config := ⟨8000, true, 42, true⟩

/-- Terminal forward value for one standard normal draw Z: both the scalar
loop and the Eigen-array code of generatePaths compute
F0 * exp(-0.5*σ*σ*T + σ*sqrt(T)*Z) with identical association. -/
def terminalValue (F0 σ T Z : ℝ) : ℝ :=
  F0 * Real.exp (-0.5 * σ * σ * T + σ * Real.sqrt T * Z)

/-- Payoff contribution of one batch in the vectorized branch (Eigen
arrays filled from draws d at offsets o..o+m-1; with antithetic variates
each draw contributes payoff(Z) then payoff(-Z), as the code pushes the
pair for each index). -/
def vecBatchSum (F0 K σ T : ℝ) (tp : OptionType) (anti : Bool) (d : ℕ → ℝ)
    (o m : ℕ) : ℝ :=
  if anti then
    ∑ i ∈ Finset.range m,
      (payoff (terminalValue F0 σ T (d (o + i))) K tp +
       payoff (terminalValue F0 σ T (-(d (o + i)))) K tp)
  else
    ∑ i ∈ Finset.range m, payoff (terminalValue F0 σ T (d (o + i))) K tp

/-- Payoff contribution of one batch in the scalar branch (one draw per
path, immediately followed by its antithetic partner when enabled). -/
def scalarBatchSum (F0 K σ T : ℝ) (tp : OptionType) (anti : Bool) (d : ℕ → ℝ)
    (o m : ℕ) : ℝ :=
  ∑ i ∈ Finset.range m,
    (payoff (terminalValue F0 σ T (d (o + i))) K tp +
     if anti then payoff (terminalValue F0 σ T (-(d (o + i)))) K tp else 0)

/-- One iteration of the batch loop of MonteCarlo::simulateVectorized:
payoff sum and path count contributed by a batch of size m whose draws sit
at offsets o..o+m-1.  The vectorized branch is taken when vectorization is
enabled and the batch has more than one path. -/
def processBatch (cfg : Config) (F0 K σ T : ℝ) (tp : OptionType) (d : ℕ → ℝ)
    (o m : ℕ) : ℝ × ℕ :=
  if cfg.enableVectorization ∧ 1 < m then
    if cfg.useAntithetic then (vecBatchSum F0 K σ T tp true d o m, 2 * m)
    else (vecBatchSum F0 K σ T tp false d o m, m)
  else
    (scalarBatchSum F0 K σ T tp cfg.useAntithetic d o m,
     if cfg.useAntithetic then 2 * m else m)

/-- The batch loop of MonteCarlo::simulateVectorized, with rem paths still
to simulate and the next unconsumed draw at offset o.  Returns the
accumulated payoff sum, the accumulated path count, and the number of draws
consumed from the stream.  Each batch has size min(batchSize, rem); a batch
size of 0 stops (the C++ loop would not terminate there). -/
def runBatches (cfg : Config) (F0 K σ T : ℝ) (tp : OptionType) (d : ℕ → ℝ)
    (o rem : ℕ) : ℝ × ℕ × ℕ :=
  if h : min cfg.batchSize rem = 0 then (0, 0, 0)
  else
    let m := min cfg.batchSize rem
    let b := processBatch cfg F0 K σ T tp d o m
    let rest := runBatches cfg F0 K σ T tp d (o + m) (rem - m)
    (b.1 + rest.1, b.2 + rest.2.1, m + rest.2.2)
termination_by rem
decreasing_by
  exact Nat.sub_lt (Nat.pos_of_ne_zero fun hr => h (by simp [hr]))
    (Nat.pos_of_ne_zero fun hb => h (by simp [hb]))

/-- MonteCarlo::simulateVectorized, returning the price estimate together
with the number of random draws consumed from the generator. -/
def simulateVectorizedS (F0 K σ T df : ℝ) (tp : OptionType) (N : ℕ)
    (cfg : Config) (d : ℕ → ℝ) : ℝ × ℕ :=
  if T ≤ 0 then (df * payoff F0 K tp, 0)
  else
    let r := runBatches cfg F0 K σ T tp d 0 N
    (df * (r.1 / (r.2.1 : ℝ)), r.2.2)

/-- MonteCarlo::mcPrice.  streams models the pseudorandom normal source:
streams s is the draw sequence produced by a fresh mt19937 seeded with s,
fed through normal_distribution. -/
def mcPrice (streams : ℤ → ℕ → ℝ) (F0 K σ T df : ℝ) (tp : OptionType)
    (N : ℕ) : ℝ :=
  (simulateVectorizedS F0 K σ T df tp N Config.default
    (streams Config.default.randomSeed)).1

/-- MonteCarlo::mcPriceAdvanced. -/
def mcPriceAdvanced (streams : ℤ → ℕ → ℝ) (F0 K σ T df : ℝ) (tp : OptionType)
    (N : ℕ) (cfg : Config) : ℝ :=
  (simulateVectorizedS F0 K σ T df tp N cfg (streams cfg.randomSeed)).1

/-- struct MonteCarlo::MCResult. -/
structure MCResult where
  price : ℝ
  standardError : ℝ
  confidenceInterval95 : ℝ
  effectivePaths : ℕ
  varianceReduction : ℝ

/-- Sum of squared payoffs pushed by one batch in the scalar branch (used
to state the closed form of the statistics loop). -/
def scalarBatchSqSum (F0 K σ T : ℝ) (tp : OptionType) (anti : Bool) (d : ℕ → ℝ)
    (o m : ℕ) : ℝ :=
  ∑ i ∈ Finset.range m,
    ((payoff (terminalValue F0 σ T (d (o + i))) K tp)^2 +
     if anti then (payoff (terminalValue F0 σ T (-(d (o + i)))) K tp)^2 else 0)

/-- One iteration of the batch loop of MonteCarlo::mcPriceWithStats:
sum of payoffs, sum of squared payoffs, and number of payoffs pushed for a
batch of size m at draw offset o (same branch structure as the pricing
loop). -/
def processBatchStats (cfg : Config) (F0 K σ T : ℝ) (tp : OptionType)
    (d : ℕ → ℝ) (o m : ℕ) : ℝ × ℝ × ℕ :=
  if cfg.enableVectorization ∧ 1 < m then
    if cfg.useAntithetic then
      (vecBatchSum F0 K σ T tp true d o m,
       ∑ i ∈ Finset.range m,
         ((payoff (terminalValue F0 σ T (d (o + i))) K tp)^2 +
          (payoff (terminalValue F0 σ T (-(d (o + i)))) K tp)^2), 2 * m)
    else
      (vecBatchSum F0 K σ T tp false d o m,
       ∑ i ∈ Finset.range m, (payoff (terminalValue F0 σ T (d (o + i))) K tp)^2,
       m)
  else
    (scalarBatchSum F0 K σ T tp cfg.useAntithetic d o m,
     ∑ i ∈ Finset.range m,
       ((payoff (terminalValue F0 σ T (d (o + i))) K tp)^2 +
        if cfg.useAntithetic then
          (payoff (terminalValue F0 σ T (-(d (o + i)))) K tp)^2 else 0),
     if cfg.useAntithetic then 2 * m else m)

/-- The batch loop of MonteCarlo::mcPriceWithStats (note: unlike
simulateVectorized it runs for every T).  Returns payoff sum, payoff square
sum, payoff count, and draws consumed. -/
def runStats (cfg : Config) (F0 K σ T : ℝ) (tp : OptionType) (d : ℕ → ℝ)
    (o rem : ℕ) : ℝ × ℝ × ℕ × ℕ :=
  if h : min cfg.batchSize rem = 0 then (0, 0, 0, 0)
  else
    let m := min cfg.batchSize rem
    let b := processBatchStats cfg F0 K σ T tp d o m
    let rest := runStats cfg F0 K σ T tp d (o + m) (rem - m)
    (b.1 + rest.1, b.2.1 + rest.2.1, b.2.2 + rest.2.2.1, m + rest.2.2.2)
termination_by rem
decreasing_by
  exact Nat.sub_lt (Nat.pos_of_ne_zero fun hr => h (by simp [hr]))
    (Nat.pos_of_ne_zero fun hb => h (by simp [hb]))

/-- MonteCarlo::mcPriceWithStats, paired with the number of draws it
consumed.  There is no T ≤ 0 early return in this entry point: the batch
loop runs regardless of T. -/
def mcPriceWithStatsS (streams : ℤ → ℕ → ℝ) (F0 K σ T df : ℝ)
    (tp : OptionType) (N : ℕ) (cfg : Config) : MCResult × ℕ :=
  let r := runStats cfg F0 K σ T tp (streams cfg.randomSeed) 0 N
  let sum := r.1
  let sumSquares := r.2.1
  let cnt := r.2.2.1
  let price := df * sum / (cnt : ℝ)
  let variance := sumSquares / (cnt : ℝ) - (sum / (cnt : ℝ)) * (sum / (cnt : ℝ))
  let se := df * Real.sqrt (variance / (cnt : ℝ))
  (⟨price, se, 1.96 * se, if cfg.useAntithetic then 2 * N else N, 0⟩, r.2.2.2)

end MonteCarlo

namespace YieldSolver

/-- YieldSolver::priceDifference, with the concrete bond-and-curve pricing
b.price(DiscountCurve(yield, m, ACT_365F)) abstracted into a caller
supplied price-as-function-of-yield map. -/
def priceDifference (price : ℝ → ℝ) (yield targetPrice : ℝ) : ℝ :=
  price yield - targetPrice

/-- YieldSolver::priceDifferenceDerivative: central finite difference with
adaptive step h = max(1e-8, 1e-6*|y|), evaluated with targetPrice 0. -/
def priceDifferenceDerivative (price : ℝ → ℝ) (yield : ℝ) : ℝ :=
  let h := max 1e-8 (1e-6 * |yield|)
  (priceDifference price (yield + h) 0 - priceDifference price (yield - h) 0) /
    (2 * h)

/-- One iteration of the bisection loop, on the state
(a, b_upper, fa, fb) carried by the code. -/
def bisectStep (price : ℝ → ℝ) (target : ℝ) (st : ℝ × ℝ × ℝ × ℝ) :
    ℝ × ℝ × ℝ × ℝ :=
  let c := (st.1 + st.2.1) / 2
  let fc := priceDifference price c target
  if st.2.2.1 * fc < 0 then (st.1, c, st.2.2.1, fc) else (c, st.2.1, fc, st.2.2.2)

/-- The fixed-count bisection loop. -/
def bisectLoop (price : ℝ → ℝ) (target : ℝ) : ℕ → ℝ × ℝ × ℝ × ℝ → ℝ × ℝ × ℝ × ℝ
  | 0, st => st
  | n + 1, st => bisectLoop price target n (bisectStep price target st)

/-- YieldSolver::bisectionPhase: bracket on [0,1], expand to [0,2] if
needed, fail if still not bracketed, else run exactly 10 bisection
iterations and return the final midpoint. -/
def bisectionPhase (price : ℝ → ℝ) (target : ℝ) : Except QErr ℝ :=
  let fa := priceDifference price 0 target
  let fb := priceDifference price 1 target
  if fa * fb > 0 then
    let fb2 := priceDifference price 2 target
    if fa * fb2 > 0 then .error .rootNotBracketed
    else
      let st := bisectLoop price target 10 (0, 2, fa, fb2)
      .ok ((st.1 + st.2.1) / 2)
  else
    let st := bisectLoop price target 10 (0, 1, fa, fb)
    .ok ((st.1 + st.2.1) / 2)

/-- The Newton-Raphson loop of YieldSolver::newtonRaphsonPhase, with the
remaining iteration budget as fuel (the code starts with 100). -/
def newtonLoop (price : ℝ → ℝ) (target : ℝ) : ℕ → ℝ → ℝ
  | 0, y => y
  | n + 1, y =>
    let pe := priceDifference price y target
    if |pe| < 1e-12 then y
    else
      let pd := priceDifferenceDerivative price y
      if |pd| < 1e-15 then y
      else
        let y1 := y - pe / pd
        let y2 := if y1 < 0 then 0.001 else y1
        let y3 := if y2 > 2 then 2 else y2
        newtonLoop price target n y3

/-- YieldSolver::newtonRaphsonPhase. -/
def newtonRaphsonPhase (price : ℝ → ℝ) (target y0 : ℝ) : ℝ :=
  newtonLoop price target 100 y0

/-- YieldSolver::solve: bisection phase, then Newton-Raphson from its
result.  The initial-guess argument y0 = 0.05 is accepted but never read
by the code. -/
def solve (price : ℝ → ℝ) (target : ℝ) (_y0 : ℝ) : Except QErr ℝ :=
  (bisectionPhase price target).map (fun yb => newtonRaphsonPhase price target yb)

end YieldSolver

namespace Sensitivity

/-- struct CashFlow. -/
structure CashFlow where
  time : ℝ
  amount : ℝ

/-- Sensitivity::discountFactor (flat-mode formula per convention). -/
def discountFactor (time yield : ℝ) (cmp : Compounding) : ℝ :=
  if cmp = .Continuous then Real.exp (-yield * time)
  else (1 + yield / cmp.mval) ^ (-(cmp.mval * time))

/-- Sensitivity::discountFactorDelta: first derivative in yield. -/
def discountFactorDelta (time yield : ℝ) (cmp : Compounding) : ℝ :=
  if cmp = .Continuous then -time * Real.exp (-yield * time)
  else -time * (1 + yield / cmp.mval) ^ (-(cmp.mval * time) - 1)

/-- Sensitivity::discountFactorGamma: second derivative in yield. -/
def discountFactorGamma (time yield : ℝ) (cmp : Compounding) : ℝ :=
  if cmp = .Continuous then time * time * Real.exp (-yield * time)
  else (time * time + time / cmp.mval) *
    (1 + yield / cmp.mval) ^ (-(cmp.mval * time) - 2)

/-- Sensitivity::price: sum of discounted cash flow amounts. -/
def price (cfs : List CashFlow) (yield : ℝ) (cmp : Compounding) : ℝ :=
  (cfs.map (fun cf => cf.amount * discountFactor cf.time yield cmp)).sum

/-- Sensitivity::priceDelta. -/
def priceDelta (cfs : List CashFlow) (yield : ℝ) (cmp : Compounding) : ℝ :=
  (cfs.map (fun cf => cf.amount * discountFactorDelta cf.time yield cmp)).sum

/-- Sensitivity::priceGamma. -/
def priceGamma (cfs : List CashFlow) (yield : ℝ) (cmp : Compounding) : ℝ :=
  (cfs.map (fun cf => cf.amount * discountFactorGamma cf.time yield cmp)).sum

/-- Sensitivity::modifiedDuration, 0 at zero price. -/
def modifiedDuration (cfs : List CashFlow) (yield : ℝ) (cmp : Compounding) : ℝ :=
  if price cfs yield cmp = 0 then 0
  else -(priceDelta cfs yield cmp) / price cfs yield cmp

/-- Sensitivity::dv01. -/
def dv01 (cfs : List CashFlow) (yield : ℝ) (cmp : Compounding) : ℝ :=
  -(priceDelta cfs yield cmp) * 0.0001

/-- Sensitivity::convexity, 0 at zero price. -/
def convexity (cfs : List CashFlow) (yield : ℝ) (cmp : Compounding) : ℝ :=
  if price cfs yield cmp = 0 then 0
  else priceGamma cfs yield cmp / price cfs yield cmp

end Sensitivity

namespace YieldSolver

/-- Bisection step as worded in the specification claim: halve the bracket
and keep the half containing the sign change (stated via the sign of
f(lower)·f(mid), as in the code). -/
def claimBisectStep (price : ℝ → ℝ) (target : ℝ) (p : ℝ × ℝ) : ℝ × ℝ :=
  let c := (p.1 + p.2) / 2
  if (price p.1 - target) * (price c - target) < 0 then (p.1, c) else (c, p.2)

/-- Newton loop following the claim text literally: after each update the
iterate is clamped INTO the interval [0.001, 2.0].  Used to compare the
claim wording against the code, which only replaces negative iterates by
0.001 and caps iterates above 2.0. -/
def newtonLoopClamped (price : ℝ → ℝ) (target : ℝ) : ℕ → ℝ → ℝ
  | 0, y => y
  | n + 1, y =>
    let pe := priceDifference price y target
    if |pe| < 1e-12 then y
    else
      let pd := priceDifferenceDerivative price y
      if |pd| < 1e-15 then y
      else
        let y1 := y - pe / pd
        newtonLoopClamped price target n (max 0.001 (min y1 2))

/-- Claim-worded Newton phase with a true clamp into [0.001, 2.0]. -/
def newtonRaphsonPhaseClamped (price : ℝ → ℝ) (target y0 : ℝ) : ℝ :=
  newtonLoopClamped price target 100 y0

end YieldSolver

/-! Theorems.  Helper lemmas come first; the claim theorems are named
c1_... to c10_... -/

theorem erf_neg_eq (x : ℝ) : Black76.erf (-x) = -Black76.erf x := by
  unfold Black76.erf
  have h2 : (∫ t in (-x)..(0:ℝ), Real.exp (-t ^ 2)) =
      ∫ t in (0:ℝ)..x, Real.exp (-t ^ 2) := by
    have h3 := intervalIntegral.integral_comp_neg
      (a := (0:ℝ)) (b := x) (fun t => Real.exp (-t ^ 2))
    simp only [neg_sq, neg_zero] at h3
    exact h3.symm
  have h1 : (∫ t in (0:ℝ)..(-x), Real.exp (-t ^ 2)) =
      -∫ t in (0:ℝ)..x, Real.exp (-t ^ 2) := by
    rw [intervalIntegral.integral_symm (-x) 0, h2]
  rw [h1]
  ring

theorem normCDF_add_neg (x : ℝ) : Black76.normCDF x + Black76.normCDF (-x) = 1 := by
  unfold Black76.normCDF
  rw [neg_div, erf_neg_eq]
  ring

/-- C10: the simple entry point mcPrice returns exactly the value of
mcPriceAdvanced invoked with a default-constructed Config (batch size
8000, antithetic variates enabled, seed 42, vectorization enabled): both
seed a fresh generator from the config seed and delegate to the same
simulation routine. -/
theorem c10_mcPrice_eq_advanced_default (streams : ℤ → ℕ → ℝ)
    (F0 K σ T df : ℝ) (tp : MonteCarlo.OptionType) (N : ℕ) :
    MonteCarlo.Config.default = ⟨8000, true, 42, true⟩ ∧
    MonteCarlo.mcPrice streams F0 K σ T df tp N =
      MonteCarlo.mcPriceAdvanced streams F0 K σ T df tp N MonteCarlo.Config.default :=
  ⟨rfl, rfl⟩

/-- C8: the sensitivity engine prices a cash-flow sequence as the sum of
amount times the per-convention discount factor (exp(-y t) continuous,
(1+y/m)^(-m t) discrete with m periods per year); modifiedDuration is
-priceDelta/price and convexity is priceGamma/price, both 0 at zero
price; dv01 is -priceDelta * 0.0001. -/
theorem c8_sensitivity_engine (cfs : List Sensitivity.CashFlow) (y : ℝ)
    (cmp : Compounding) :
    Sensitivity.price cfs y cmp =
      (cfs.map (fun cf => cf.amount *
        (if cmp = .Continuous then Real.exp (-(y * cf.time))
         else (1 + y / cmp.mval) ^ (-(cmp.mval * cf.time))))).sum ∧
    (Compounding.mval .Annual = 1 ∧ Compounding.mval .Semi = 2 ∧
     Compounding.mval .Quarterly = 4 ∧ Compounding.mval .Monthly = 12) ∧
    (Sensitivity.price cfs y cmp ≠ 0 →
      Sensitivity.modifiedDuration cfs y cmp =
        -(Sensitivity.priceDelta cfs y cmp) / Sensitivity.price cfs y cmp) ∧
    (Sensitivity.price cfs y cmp = 0 → Sensitivity.modifiedDuration cfs y cmp = 0) ∧
    (Sensitivity.price cfs y cmp ≠ 0 →
      Sensitivity.convexity cfs y cmp =
        Sensitivity.priceGamma cfs y cmp / Sensitivity.price cfs y cmp) ∧
    (Sensitivity.price cfs y cmp = 0 → Sensitivity.convexity cfs y cmp = 0) ∧
    Sensitivity.dv01 cfs y cmp = -(Sensitivity.priceDelta cfs y cmp) * 0.0001 := by
  refine ⟨?_, ⟨rfl, rfl, rfl, rfl⟩, ?_, ?_, ?_, ?_, rfl⟩
  · have hfun : (fun cf : Sensitivity.CashFlow =>
        cf.amount * Sensitivity.discountFactor cf.time y cmp) =
        fun cf : Sensitivity.CashFlow => cf.amount *
          (if cmp = .Continuous then Real.exp (-(y * cf.time))
           else (1 + y / cmp.mval) ^ (-(cmp.mval * cf.time))) := by
      funext cf
      by_cases hc : cmp = .Continuous <;>
        simp [Sensitivity.discountFactor, hc, neg_mul]
    unfold Sensitivity.price
    rw [hfun]
  · intro h
    unfold Sensitivity.modifiedDuration
    rw [if_neg h]
  · intro h
    unfold Sensitivity.modifiedDuration
    rw [if_pos h]
  · intro h
    unfold Sensitivity.convexity
    rw [if_neg h]
  · intro h
    unfold Sensitivity.convexity
    rw [if_pos h]

theorem c8_witness :
    Sensitivity.price [⟨1, 1⟩] 0 .Continuous ≠ 0 ∧
    Sensitivity.modifiedDuration [⟨1, 1⟩] 0 .Continuous =
      -(Sensitivity.priceDelta [⟨1, 1⟩] 0 .Continuous) /
        Sensitivity.price [⟨1, 1⟩] 0 .Continuous := by
  have h : Sensitivity.price [⟨1, 1⟩] 0 .Continuous ≠ 0 := by
    simp [Sensitivity.price, Sensitivity.discountFactor]
  exact ⟨h, (c8_sensitivity_engine [⟨1, 1⟩] 0 .Continuous).2.2.1 h⟩

/-- C5: the closed-form pricer returns the discounted intrinsic value,
zero vega and indicator delta when T ≤ 0 or σ ≤ 0, and otherwise the
Black-76 formulas in d1 = [ln(F/K)+0.5σ²T]/(σ√T), d2 = d1-σ√T, with N the
normal CDF via the error function and φ the normal density. -/
theorem c5_black76_formulas (F K T σ D : ℝ) :
    ((T ≤ 0 ∨ σ ≤ 0) →
      Black76.price F K T σ D true = D * max (F - K) 0 ∧
      Black76.price F K T σ D false = D * max (K - F) 0 ∧
      Black76.vega F K T σ D = 0 ∧
      Black76.delta F K T σ D true = (if K < F then D else 0) ∧
      Black76.delta F K T σ D false = (if F < K then -D else 0)) ∧
    (0 < T → 0 < σ →
      Black76.price F K T σ D true =
        D * (F * Black76.normCDF
              ((Real.log (F / K) + 0.5 * σ ^ 2 * T) / (σ * Real.sqrt T)) -
             K * Black76.normCDF
              ((Real.log (F / K) + 0.5 * σ ^ 2 * T) / (σ * Real.sqrt T) -
                σ * Real.sqrt T)) ∧
      Black76.price F K T σ D false =
        D * (K * Black76.normCDF
              (-((Real.log (F / K) + 0.5 * σ ^ 2 * T) / (σ * Real.sqrt T) -
                  σ * Real.sqrt T)) -
             F * Black76.normCDF
              (-((Real.log (F / K) + 0.5 * σ ^ 2 * T) / (σ * Real.sqrt T)))) ∧
      Black76.vega F K T σ D =
        D * F * Black76.normPDF
          ((Real.log (F / K) + 0.5 * σ ^ 2 * T) / (σ * Real.sqrt T)) *
          Real.sqrt T ∧
      Black76.delta F K T σ D true =
        D * Black76.normCDF
          ((Real.log (F / K) + 0.5 * σ ^ 2 * T) / (σ * Real.sqrt T)) ∧
      Black76.delta F K T σ D false =
        -D * Black76.normCDF
          (-((Real.log (F / K) + 0.5 * σ ^ 2 * T) / (σ * Real.sqrt T)))) ∧
    (∀ x : ℝ, Black76.normCDF x = 0.5 * (1 + Black76.erf (x / Real.sqrt 2))) ∧
    (∀ x : ℝ, Black76.normPDF x = Real.exp (-(x ^ 2) / 2) / Real.sqrt (2 * Real.pi)) := by
  have hd1 : Black76.d1 F K T σ =
      (Real.log (F / K) + 0.5 * σ ^ 2 * T) / (σ * Real.sqrt T) := by
    unfold Black76.d1
    ring_nf
  have hd2 : Black76.d2 F K T σ =
      (Real.log (F / K) + 0.5 * σ ^ 2 * T) / (σ * Real.sqrt T) - σ * Real.sqrt T := by
    unfold Black76.d2
    rw [hd1]
  refine ⟨?_, ?_, fun _ => rfl, ?_⟩
  · intro h
    refine ⟨?_, ?_, ?_, ?_, ?_⟩
    · simp [Black76.price, if_pos h]
    · simp [Black76.price, if_pos h]
    · simp [Black76.vega, if_pos h]
    · simp [Black76.delta, if_pos h, mul_ite]
    · simp [Black76.delta, if_pos h, mul_ite]
  · intro hT hσ
    have h : ¬(T ≤ 0 ∨ σ ≤ 0) := by
      push_neg
      exact ⟨hT, hσ⟩
    refine ⟨?_, ?_, ?_, ?_, ?_⟩ <;>
      simp [Black76.price, Black76.vega, Black76.delta, if_neg h, hd1, hd2]
  · intro x
    have harg : (-0.5 * x * x : ℝ) = -(x ^ 2) / 2 := by ring
    rw [Black76.normPDF, harg]
    ring

theorem c5_witness :
    Black76.vega 1 1 1 1 1 =
      1 * 1 * Black76.normPDF
        ((Real.log (1 / 1) + 0.5 * 1 ^ 2 * 1) / (1 * Real.sqrt 1)) *
        Real.sqrt 1 :=
  ((c5_black76_formulas 1 1 1 1 1).2.1 (by norm_num) (by norm_num)).2.2.1

/-- C9: put-call parity for the closed-form pricer: for positive F, K, T,
σ and D in (0,1], call minus put equals D*(F-K), using N(x)+N(-x)=1 for
the error-function normal CDF. -/
theorem c9_put_call_parity (F K T σ D : ℝ) (hF : 0 < F) (hK : 0 < K)
    (hT : 0 < T) (hσ : 0 < σ) (hD0 : 0 < D) (hD1 : D ≤ 1) :
    Black76.price F K T σ D true - Black76.price F K T σ D false = D * (F - K) := by
  have h : ¬(T ≤ 0 ∨ σ ≤ 0) := by
    push_neg
    exact ⟨hT, hσ⟩
  simp only [Black76.price, if_neg h, Bool.false_eq_true, if_true, if_false]
  have h1 := normCDF_add_neg (Black76.d1 F K T σ)
  have h2 := normCDF_add_neg (Black76.d2 F K T σ)
  linear_combination D * F * h1 - D * K * h2

theorem c9_witness :
    Black76.price 2 1 1 1 1 true - Black76.price 2 1 1 1 1 false = 1 * (2 - 1) :=
  c9_put_call_parity 2 1 1 1 1 (by norm_num) (by norm_num) (by norm_num)
    (by norm_num) (by norm_num) (by norm_num)

/-- C4: solve fails with RootNotBracketed exactly when f(y)=price(y)-target
has f(0)*f(1) > 0 and f(0)*f(2) > 0; RootNotBracketed is the only failure
and in every other case a yield estimate is returned. -/
theorem c4_root_not_bracketed_iff (price : ℝ → ℝ) (target y0 : ℝ) :
    (YieldSolver.solve price target y0 = .error .rootNotBracketed ↔
      (price 0 - target) * (price 1 - target) > 0 ∧
      (price 0 - target) * (price 2 - target) > 0) ∧
    (∀ e, YieldSolver.solve price target y0 = .error e → e = .rootNotBracketed) ∧
    (¬((price 0 - target) * (price 1 - target) > 0 ∧
       (price 0 - target) * (price 2 - target) > 0) →
      ∃ yv, YieldSolver.solve price target y0 = .ok yv) := by
  unfold YieldSolver.solve YieldSolver.bisectionPhase YieldSolver.priceDifference
  by_cases h1 : (price 0 - target) * (price 1 - target) > 0
  · by_cases h2 : (price 0 - target) * (price 2 - target) > 0
    · simp [h1, h2, Except.map]
    · simp [h1, h2, Except.map]
  · simp [h1, Except.map]

theorem processBatch_eq_scalar (cfg : MonteCarlo.Config) (F0 K σ T : ℝ)
    (tp : MonteCarlo.OptionType) (d : ℕ → ℝ) (o m : ℕ) :
    MonteCarlo.processBatch cfg F0 K σ T tp d o m =
      (MonteCarlo.scalarBatchSum F0 K σ T tp cfg.useAntithetic d o m,
       if cfg.useAntithetic then 2 * m else m) := by
  unfold MonteCarlo.processBatch
  split
  · cases hA : cfg.useAntithetic <;>
      simp [hA, MonteCarlo.vecBatchSum, MonteCarlo.scalarBatchSum]
  · rfl

theorem scalarBatchSum_split (F0 K σ T : ℝ) (tp : MonteCarlo.OptionType)
    (anti : Bool) (d : ℕ → ℝ) (o m k : ℕ) :
    MonteCarlo.scalarBatchSum F0 K σ T tp anti d o (m + k) =
      MonteCarlo.scalarBatchSum F0 K σ T tp anti d o m +
        MonteCarlo.scalarBatchSum F0 K σ T tp anti d (o + m) k := by
  unfold MonteCarlo.scalarBatchSum
  rw [Finset.sum_range_add]
  congr 1
  exact Finset.sum_congr rfl fun i _ => by rw [Nat.add_assoc]

theorem runBatches_closed (cfg : MonteCarlo.Config) (F0 K σ T : ℝ)
    (tp : MonteCarlo.OptionType) (d : ℕ → ℝ) (hb : cfg.batchSize ≠ 0) :
    ∀ rem o, MonteCarlo.runBatches cfg F0 K σ T tp d o rem =
      (MonteCarlo.scalarBatchSum F0 K σ T tp cfg.useAntithetic d o rem,
       (if cfg.useAntithetic then 2 * rem else rem), rem) := by
  intro rem
  induction rem using Nat.strong_induction_on with
  | _ rem ih =>
    intro o
    rw [MonteCarlo.runBatches]
    by_cases h0 : rem = 0
    · subst h0
      simp [MonteCarlo.scalarBatchSum]
    · have hmin : min cfg.batchSize rem ≠ 0 := by
        simp [Nat.min_eq_zero_iff, hb, h0]
      rw [dif_neg hmin]
      dsimp only
      have hmle : min cfg.batchSize rem ≤ rem := Nat.min_le_right _ _
      have hmpos : 0 < min cfg.batchSize rem := Nat.pos_of_ne_zero hmin
      rw [ih (rem - min cfg.batchSize rem) (Nat.sub_lt (Nat.pos_of_ne_zero h0) hmpos),
        processBatch_eq_scalar]
      have hrk : min cfg.batchSize rem + (rem - min cfg.batchSize rem) = rem := by
        omega
      have hsum : MonteCarlo.scalarBatchSum F0 K σ T tp cfg.useAntithetic d o
            (min cfg.batchSize rem) +
          MonteCarlo.scalarBatchSum F0 K σ T tp cfg.useAntithetic d
            (o + min cfg.batchSize rem) (rem - min cfg.batchSize rem) =
          MonteCarlo.scalarBatchSum F0 K σ T tp cfg.useAntithetic d o rem := by
        rw [← scalarBatchSum_split, hrk]
      refine Prod.ext ?_ (Prod.ext ?_ ?_) <;> simp only
      · rw [← hsum]
      · cases cfg.useAntithetic <;> simp only [Bool.false_eq_true, if_false, if_true] <;> omega
      · omega

/-- C1: for fixed scalar inputs and draw stream, the Monte Carlo estimate
from simulateVectorized does not depend on the batch size (any positive
value) or on the enableVectorization flag, and depends only on the first
pathCount draws, consumed in order: both configurations consume the same
number of draws and return the same value. -/
theorem c1_batching_is_pure_optimization (F0 K σ T df : ℝ)
    (tp : MonteCarlo.OptionType) (N : ℕ) (d d' : ℕ → ℝ)
    (cfg cfg' : MonteCarlo.Config)
    (hanti : cfg.useAntithetic = cfg'.useAntithetic)
    (hb : cfg.batchSize ≠ 0) (hb' : cfg'.batchSize ≠ 0)
    (hd : ∀ i < N, d i = d' i) :
    MonteCarlo.simulateVectorizedS F0 K σ T df tp N cfg d =
      MonteCarlo.simulateVectorizedS F0 K σ T df tp N cfg' d' := by
  unfold MonteCarlo.simulateVectorizedS
  by_cases hT : T ≤ 0
  · rw [if_pos hT, if_pos hT]
  · rw [if_neg hT, if_neg hT]
    rw [runBatches_closed cfg F0 K σ T tp d hb N 0,
      runBatches_closed cfg' F0 K σ T tp d' hb' N 0]
    have hsum : MonteCarlo.scalarBatchSum F0 K σ T tp cfg.useAntithetic d 0 N =
        MonteCarlo.scalarBatchSum F0 K σ T tp cfg'.useAntithetic d' 0 N := by
      rw [← hanti]
      unfold MonteCarlo.scalarBatchSum
      exact Finset.sum_congr rfl fun i hi => by
        rw [hd (0 + i) (by simpa using Finset.mem_range.mp hi)]
    rw [hsum, hanti]

theorem c1_witness :
    MonteCarlo.simulateVectorizedS 1 1 1 1 1 .Call 3 ⟨1, true, 42, false⟩
        (fun _ => 0) =
      MonteCarlo.simulateVectorizedS 1 1 1 1 1 .Call 3 ⟨8000, true, 42, true⟩
        (fun _ => 0) :=
  c1_batching_is_pure_optimization 1 1 1 1 1 .Call 3 (fun _ => 0) (fun _ => 0)
    ⟨1, true, 42, false⟩ ⟨8000, true, 42, true⟩ rfl (by decide) (by decide)
    (fun _ _ => rfl)

theorem processBatchStats_eq_scalar (cfg : MonteCarlo.Config) (F0 K σ T : ℝ)
    (tp : MonteCarlo.OptionType) (d : ℕ → ℝ) (o m : ℕ) :
    MonteCarlo.processBatchStats cfg F0 K σ T tp d o m =
      (MonteCarlo.scalarBatchSum F0 K σ T tp cfg.useAntithetic d o m,
       MonteCarlo.scalarBatchSqSum F0 K σ T tp cfg.useAntithetic d o m,
       if cfg.useAntithetic then 2 * m else m) := by
  unfold MonteCarlo.processBatchStats
  split
  · cases hA : cfg.useAntithetic <;>
      simp [hA, MonteCarlo.vecBatchSum, MonteCarlo.scalarBatchSum,
        MonteCarlo.scalarBatchSqSum]
  · rfl

theorem scalarBatchSqSum_split (F0 K σ T : ℝ) (tp : MonteCarlo.OptionType)
    (anti : Bool) (d : ℕ → ℝ) (o m k : ℕ) :
    MonteCarlo.scalarBatchSqSum F0 K σ T tp anti d o (m + k) =
      MonteCarlo.scalarBatchSqSum F0 K σ T tp anti d o m +
        MonteCarlo.scalarBatchSqSum F0 K σ T tp anti d (o + m) k := by
  unfold MonteCarlo.scalarBatchSqSum
  rw [Finset.sum_range_add]
  congr 1
  exact Finset.sum_congr rfl fun i _ => by rw [Nat.add_assoc]

theorem runStats_closed (cfg : MonteCarlo.Config) (F0 K σ T : ℝ)
    (tp : MonteCarlo.OptionType) (d : ℕ → ℝ) (hb : cfg.batchSize ≠ 0) :
    ∀ rem o, MonteCarlo.runStats cfg F0 K σ T tp d o rem =
      (MonteCarlo.scalarBatchSum F0 K σ T tp cfg.useAntithetic d o rem,
       MonteCarlo.scalarBatchSqSum F0 K σ T tp cfg.useAntithetic d o rem,
       (if cfg.useAntithetic then 2 * rem else rem), rem) := by
  intro rem
  induction rem using Nat.strong_induction_on with
  | _ rem ih =>
    intro o
    rw [MonteCarlo.runStats]
    by_cases h0 : rem = 0
    · subst h0
      simp [MonteCarlo.scalarBatchSum, MonteCarlo.scalarBatchSqSum]
    · have hmin : min cfg.batchSize rem ≠ 0 := by
        simp [Nat.min_eq_zero_iff, hb, h0]
      rw [dif_neg hmin]
      dsimp only
      have hmpos : 0 < min cfg.batchSize rem := Nat.pos_of_ne_zero hmin
      rw [ih (rem - min cfg.batchSize rem) (Nat.sub_lt (Nat.pos_of_ne_zero h0) hmpos),
        processBatchStats_eq_scalar]
      have hrk : min cfg.batchSize rem + (rem - min cfg.batchSize rem) = rem := by
        omega
      have hsum : MonteCarlo.scalarBatchSum F0 K σ T tp cfg.useAntithetic d o
            (min cfg.batchSize rem) +
          MonteCarlo.scalarBatchSum F0 K σ T tp cfg.useAntithetic d
            (o + min cfg.batchSize rem) (rem - min cfg.batchSize rem) =
          MonteCarlo.scalarBatchSum F0 K σ T tp cfg.useAntithetic d o rem := by
        rw [← scalarBatchSum_split, hrk]
      have hsq : MonteCarlo.scalarBatchSqSum F0 K σ T tp cfg.useAntithetic d o
            (min cfg.batchSize rem) +
          MonteCarlo.scalarBatchSqSum F0 K σ T tp cfg.useAntithetic d
            (o + min cfg.batchSize rem) (rem - min cfg.batchSize rem) =
          MonteCarlo.scalarBatchSqSum F0 K σ T tp cfg.useAntithetic d o rem := by
        rw [← scalarBatchSqSum_split, hrk]
      refine Prod.ext ?_ (Prod.ext ?_ (Prod.ext ?_ ?_)) <;> simp only
      · rw [← hsum]
      · rw [← hsq]
      · cases cfg.useAntithetic <;>
          simp only [Bool.false_eq_true, if_false, if_true] <;> omega
      · omega

/-- C6 (amended): when T ≤ 0 the price-returning Monte Carlo entry points
(simulateVectorized, hence mcPrice and mcPriceAdvanced) return the
discounted intrinsic payoff directly, consuming no random draws; the
statistics-returning variant mcPriceWithStats performs the batch
simulation regardless of T, consuming pathCount draws, although at T = 0
its price still equals the discounted intrinsic payoff. -/
theorem c6_expired_option_entry_points (streams : ℤ → ℕ → ℝ)
    (F0 K σ T df : ℝ) (tp : MonteCarlo.OptionType) (N : ℕ)
    (cfg : MonteCarlo.Config) (hT : T ≤ 0) (hb : cfg.batchSize ≠ 0)
    (hN : N ≠ 0) :
    (∀ d : ℕ → ℝ, MonteCarlo.simulateVectorizedS F0 K σ T df tp N cfg d =
      (df * MonteCarlo.payoff F0 K tp, 0)) ∧
    MonteCarlo.mcPrice streams F0 K σ T df tp N =
      df * MonteCarlo.payoff F0 K tp ∧
    MonteCarlo.mcPriceAdvanced streams F0 K σ T df tp N cfg =
      df * MonteCarlo.payoff F0 K tp ∧
    (MonteCarlo.mcPriceWithStatsS streams F0 K σ T df tp N cfg).2 = N ∧
    (T = 0 → (MonteCarlo.mcPriceWithStatsS streams F0 K σ T df tp N cfg).1.price =
      df * MonteCarlo.payoff F0 K tp) := by
  have hsim : ∀ d : ℕ → ℝ, MonteCarlo.simulateVectorizedS F0 K σ T df tp N cfg d =
      (df * MonteCarlo.payoff F0 K tp, 0) := by
    intro d
    unfold MonteCarlo.simulateVectorizedS
    rw [if_pos hT]
  have hstats := runStats_closed cfg F0 K σ T tp (streams cfg.randomSeed) hb N 0
  refine ⟨hsim, ?_, ?_, ?_, ?_⟩
  · unfold MonteCarlo.mcPrice MonteCarlo.simulateVectorizedS
    rw [if_pos hT]
  · unfold MonteCarlo.mcPriceAdvanced
    rw [hsim]
  · unfold MonteCarlo.mcPriceWithStatsS
    rw [hstats]
  · intro hT0
    subst hT0
    unfold MonteCarlo.mcPriceWithStatsS
    rw [hstats]
    dsimp only
    have hterm : ∀ Z : ℝ, MonteCarlo.terminalValue F0 σ 0 Z = F0 := by
      intro Z
      unfold MonteCarlo.terminalValue
      simp
    have hsum : MonteCarlo.scalarBatchSum F0 K σ 0 tp cfg.useAntithetic
          (streams cfg.randomSeed) 0 N =
        ((if cfg.useAntithetic then 2 * N else N : ℕ) : ℝ) *
          MonteCarlo.payoff F0 K tp := by
      unfold MonteCarlo.scalarBatchSum
      rw [Finset.sum_congr rfl fun i _ => by rw [hterm, hterm]]
      rw [Finset.sum_const, Finset.card_range]
      cases cfg.useAntithetic <;> simp <;> push_cast <;> ring
    rw [hsum]
    have hc : ((if cfg.useAntithetic then 2 * N else N : ℕ) : ℝ) ≠ 0 := by
      cases cfg.useAntithetic <;> simp <;> omega
    field_simp
    ring

theorem c6_counterexample :
    (0:ℝ) ≤ 0 ∧
    (MonteCarlo.mcPriceWithStatsS (fun _ _ => 0) 1 1 1 0 1 .Call 1
      MonteCarlo.Config.default).2 = 1 ∧ (1:ℕ) ≠ 0 := by
  refine ⟨le_refl 0, ?_, by decide⟩
  have hstats := runStats_closed MonteCarlo.Config.default 1 1 1 0 .Call
    ((fun _ _ => (0:ℝ)) (MonteCarlo.Config.default.randomSeed)) (by decide) 1 0
  unfold MonteCarlo.mcPriceWithStatsS
  rw [hstats]

theorem c6_witness :
    MonteCarlo.mcPrice (fun _ _ => 0) 1 1 1 0 1 .Call 1 =
      1 * MonteCarlo.payoff 1 1 .Call ∧
    (MonteCarlo.mcPriceWithStatsS (fun _ _ => 0) 1 1 1 0 1 .Call 1
      MonteCarlo.Config.default).2 = 1 := by
  have h := c6_expired_option_entry_points (fun _ _ => 0) 1 1 1 0 1 .Call 1
    MonteCarlo.Config.default (le_refl 0) (by decide) (by decide)
  exact ⟨h.2.1, h.2.2.2.1⟩

theorem c4_witness :
    ¬(((fun y => y) 0 - (0.5:ℝ)) * ((fun y => y) 1 - 0.5) > 0 ∧
      ((fun y => y) 0 - (0.5:ℝ)) * ((fun y => y) 2 - 0.5) > 0) ∧
    ∃ yv, YieldSolver.solve (fun y => y) 0.5 0.05 = .ok yv := by
  have h : ¬(((fun y : ℝ => y) 0 - (0.5:ℝ)) * ((fun y : ℝ => y) 1 - 0.5) > 0 ∧
      ((fun y : ℝ => y) 0 - (0.5:ℝ)) * ((fun y : ℝ => y) 2 - 0.5) > 0) := by
    norm_num
  exact ⟨h, (c4_root_not_bracketed_iff (fun y => y) 0.5 0.05).2.2 h⟩

theorem newtonLoop_zero_eq (price : ℝ → ℝ) (target y : ℝ) :
    YieldSolver.newtonLoop price target 0 y = y := rfl

theorem newtonLoop_succ_conv (price : ℝ → ℝ) (target : ℝ) (n : ℕ) (y : ℝ)
    (h : |price y - target| < 1e-12) :
    YieldSolver.newtonLoop price target (n + 1) y = y := by
  rw [YieldSolver.newtonLoop]
  simp only [YieldSolver.priceDifference]
  rw [if_pos h]

theorem newtonLoop_succ_smallDeriv (price : ℝ → ℝ) (target : ℝ) (n : ℕ) (y : ℝ)
    (h1 : ¬(|price y - target| < 1e-12))
    (h2 : |YieldSolver.priceDifferenceDerivative price y| < 1e-15) :
    YieldSolver.newtonLoop price target (n + 1) y = y := by
  rw [YieldSolver.newtonLoop]
  simp only [YieldSolver.priceDifference]
  rw [if_neg h1, if_pos h2]

theorem newtonLoop_succ_update (price : ℝ → ℝ) (target : ℝ) (n : ℕ) (y : ℝ)
    (h1 : ¬(|price y - target| < 1e-12))
    (h2 : ¬(|YieldSolver.priceDifferenceDerivative price y| < 1e-15)) :
    YieldSolver.newtonLoop price target (n + 1) y =
      YieldSolver.newtonLoop price target n
        (if y - (price y - target) / YieldSolver.priceDifferenceDerivative price y < 0
         then 0.001
         else if y - (price y - target) / YieldSolver.priceDifferenceDerivative price y > 2
         then 2
         else y - (price y - target) / YieldSolver.priceDifferenceDerivative price y) := by
  rw [YieldSolver.newtonLoop]
  simp only [YieldSolver.priceDifference]
  rw [if_neg h1, if_neg h2]
  by_cases hneg : y - (price y - target) / YieldSolver.priceDifferenceDerivative price y < 0
  · rw [if_pos hneg, if_pos hneg, if_neg (by norm_num : ¬((0.001:ℝ) > 2))]
  · rw [if_neg hneg, if_neg hneg]

theorem newtonLoopClamped_succ_conv (price : ℝ → ℝ) (target : ℝ) (n : ℕ) (y : ℝ)
    (h : |price y - target| < 1e-12) :
    YieldSolver.newtonLoopClamped price target (n + 1) y = y := by
  rw [YieldSolver.newtonLoopClamped]
  simp only [YieldSolver.priceDifference]
  rw [if_pos h]

theorem newtonLoopClamped_succ_update (price : ℝ → ℝ) (target : ℝ) (n : ℕ) (y : ℝ)
    (h1 : ¬(|price y - target| < 1e-12))
    (h2 : ¬(|YieldSolver.priceDifferenceDerivative price y| < 1e-15)) :
    YieldSolver.newtonLoopClamped price target (n + 1) y =
      YieldSolver.newtonLoopClamped price target n
        (max 0.001 (min (y - (price y - target) /
          YieldSolver.priceDifferenceDerivative price y) 2)) := by
  rw [YieldSolver.newtonLoopClamped]
  simp only [YieldSolver.priceDifference]
  rw [if_neg h1, if_neg h2]

theorem bisectLoop_agree (price : ℝ → ℝ) (target : ℝ) :
    ∀ (n : ℕ) (a b fb : ℝ),
      ((YieldSolver.bisectLoop price target n (a, b, price a - target, fb)).1,
       (YieldSolver.bisectLoop price target n (a, b, price a - target, fb)).2.1) =
      (YieldSolver.claimBisectStep price target)^[n] (a, b) := by
  intro n
  induction n with
  | zero =>
    intro a b fb
    rfl
  | succ k ih =>
    intro a b fb
    rw [Function.iterate_succ_apply, YieldSolver.bisectLoop]
    simp only [YieldSolver.bisectStep, YieldSolver.claimBisectStep,
      YieldSolver.priceDifference]
    by_cases hc : (price a - target) * (price ((a + b) / 2) - target) < 0
    · rw [if_pos hc, if_pos hc]
      exact ih a ((a + b) / 2) (price ((a + b) / 2) - target)
    · rw [if_neg hc, if_neg hc]
      exact ih ((a + b) / 2) b fb

/-- C3 (amended): whenever the root is bracketed (on [0,1], else on [0,2])
the solver runs exactly 10 bisection iterations, each halving the bracket
and keeping the half containing the sign change, then Newton-Raphson from
the final midpoint with at most 100 iterations; it returns the iterate
when |f(y)| < 1e-12, estimates the derivative by central difference with
step h = max(1e-8, 1e-6*|y|), aborts returning the current iterate when
the derivative magnitude is below 1e-15, and after each update resets a
negative iterate to 0.001 and caps an iterate above 2.0 at 2.0 (iterates
inside [0, 0.001) are kept as they are, so the result is not clamped into
[0.001, 2.0]). -/
theorem c3_two_phase_solver (price : ℝ → ℝ) (target y0 : ℝ) :
    (¬((price 0 - target) * (price 1 - target) > 0) →
      YieldSolver.solve price target y0 =
        .ok (YieldSolver.newtonRaphsonPhase price target
          ((((YieldSolver.claimBisectStep price target)^[10] (0, 1)).1 +
            ((YieldSolver.claimBisectStep price target)^[10] (0, 1)).2) / 2))) ∧
    ((price 0 - target) * (price 1 - target) > 0 →
     ¬((price 0 - target) * (price 2 - target) > 0) →
      YieldSolver.solve price target y0 =
        .ok (YieldSolver.newtonRaphsonPhase price target
          ((((YieldSolver.claimBisectStep price target)^[10] (0, 2)).1 +
            ((YieldSolver.claimBisectStep price target)^[10] (0, 2)).2) / 2))) ∧
    (∀ y : ℝ, YieldSolver.newtonRaphsonPhase price target y =
      YieldSolver.newtonLoop price target 100 y) ∧
    (∀ y : ℝ, YieldSolver.newtonLoop price target 0 y = y) ∧
    (∀ (n : ℕ) (y : ℝ), |price y - target| < 1e-12 →
      YieldSolver.newtonLoop price target (n + 1) y = y) ∧
    (∀ y : ℝ, YieldSolver.priceDifferenceDerivative price y =
      (price (y + max 1e-8 (1e-6 * |y|)) - price (y - max 1e-8 (1e-6 * |y|))) /
        (2 * max 1e-8 (1e-6 * |y|))) ∧
    (∀ (n : ℕ) (y : ℝ), ¬(|price y - target| < 1e-12) →
      |YieldSolver.priceDifferenceDerivative price y| < 1e-15 →
      YieldSolver.newtonLoop price target (n + 1) y = y) ∧
    (∀ (n : ℕ) (y : ℝ), ¬(|price y - target| < 1e-12) →
      ¬(|YieldSolver.priceDifferenceDerivative price y| < 1e-15) →
      YieldSolver.newtonLoop price target (n + 1) y =
        YieldSolver.newtonLoop price target n
          (if y - (price y - target) / YieldSolver.priceDifferenceDerivative price y < 0
           then 0.001
           else if y - (price y - target) / YieldSolver.priceDifferenceDerivative price y > 2
           then 2
           else y - (price y - target) / YieldSolver.priceDifferenceDerivative price y)) := by
  refine ⟨?_, ?_, fun _ => rfl, fun _ => rfl, newtonLoop_succ_conv price target,
    fun y => by simp [YieldSolver.priceDifferenceDerivative, YieldSolver.priceDifference],
    newtonLoop_succ_smallDeriv price target, newtonLoop_succ_update price target⟩
  · intro h1
    unfold YieldSolver.solve YieldSolver.bisectionPhase YieldSolver.priceDifference
    dsimp only
    rw [if_neg h1]
    have hpair := bisectLoop_agree price target 10 0 1 (price 1 - target)
    have h1' := congrArg Prod.fst hpair
    have h2' := congrArg Prod.snd hpair
    dsimp only at h1' h2'
    rw [Except.map, h1', h2']
  · intro h1 h2
    unfold YieldSolver.solve YieldSolver.bisectionPhase YieldSolver.priceDifference
    dsimp only
    rw [if_pos h1, if_neg h2]
    have hpair := bisectLoop_agree price target 10 0 2 (price 2 - target)
    have h1' := congrArg Prod.fst hpair
    have h2' := congrArg Prod.snd hpair
    dsimp only at h1' h2'
    rw [Except.map, h1', h2']

theorem c3_witness :
    YieldSolver.solve (fun t => t) 0.5 0.05 =
      .ok (YieldSolver.newtonRaphsonPhase (fun t => t) 0.5
        ((((YieldSolver.claimBisectStep (fun t => t) 0.5)^[10] (0, 1)).1 +
          ((YieldSolver.claimBisectStep (fun t => t) 0.5)^[10] (0, 1)).2) / 2)) :=
  (c3_two_phase_solver (fun t => t) 0.5 0.05).1 (by norm_num)

theorem derivEst_linear (y : ℝ) :
    YieldSolver.priceDifferenceDerivative (fun t => t) y = 1 := by
  unfold YieldSolver.priceDifferenceDerivative YieldSolver.priceDifference
  dsimp only
  have hpos : (0:ℝ) < max 1e-8 (1e-6 * |y|) :=
    lt_of_lt_of_le (by norm_num) (le_max_left _ _)
  field_simp
  ring

theorem newtonLoopClamped_fix :
    ∀ n : ℕ, YieldSolver.newtonLoopClamped (fun t => t) 0.0005 n 0.001 = 0.001 := by
  intro n
  induction n with
  | zero => rfl
  | succ k ih =>
    have ha : ¬(|(fun t : ℝ => t) 0.001 - 0.0005| < 1e-12) := by
      rw [show ((fun t : ℝ => t) 0.001 - 0.0005 : ℝ) = 0.0005 by norm_num,
        abs_of_pos (by norm_num : (0:ℝ) < 0.0005)]
      norm_num
    have hb : ¬(|YieldSolver.priceDifferenceDerivative (fun t : ℝ => t) 0.001| < 1e-15) := by
      rw [derivEst_linear]
      norm_num
    rw [newtonLoopClamped_succ_update (fun t => t) 0.0005 k 0.001 ha hb,
      derivEst_linear]
    have harg : max 0.001 (min ((0.001:ℝ) - ((fun t : ℝ => t) 0.001 - 0.0005) / 1) 2) =
        0.001 := by
      rw [show ((0.001:ℝ) - ((fun t : ℝ => t) 0.001 - 0.0005) / 1) = 0.0005 by norm_num,
        min_eq_left (by norm_num : (0.0005:ℝ) ≤ 2),
        max_eq_left (by norm_num : (0.0005:ℝ) ≤ 0.001)]
    rw [harg, ih]

theorem c3_counterexample :
    YieldSolver.newtonRaphsonPhase (fun t => t) 0.0005 0.5 = 0.0005 ∧
    YieldSolver.newtonRaphsonPhaseClamped (fun t => t) 0.0005 0.5 = 0.001 ∧
    YieldSolver.newtonRaphsonPhase (fun t => t) 0.0005 0.5 ∉
      Set.Icc (0.001:ℝ) 2 := by
  have ha : ¬(|(fun t : ℝ => t) 0.5 - 0.0005| < 1e-12) := by
    rw [show ((fun t : ℝ => t) 0.5 - 0.0005 : ℝ) = 0.4995 by norm_num,
      abs_of_pos (by norm_num : (0:ℝ) < 0.4995)]
    norm_num
  have hb : ¬(|YieldSolver.priceDifferenceDerivative (fun t : ℝ => t) 0.5| < 1e-15) := by
    rw [derivEst_linear]
    norm_num
  have hupd : ((0.5:ℝ) - ((fun t : ℝ => t) 0.5 - 0.0005) / 1) = 0.0005 := by
    norm_num
  have hcode : YieldSolver.newtonRaphsonPhase (fun t => t) 0.0005 0.5 = 0.0005 := by
    unfold YieldSolver.newtonRaphsonPhase
    rw [show (100:ℕ) = 99 + 1 from rfl,
      newtonLoop_succ_update (fun t => t) 0.0005 99 0.5 ha hb, derivEst_linear, hupd,
      if_neg (by norm_num : ¬((0.0005:ℝ) < 0)),
      if_neg (by norm_num : ¬((0.0005:ℝ) > 2)),
      show (99:ℕ) = 98 + 1 from rfl,
      newtonLoop_succ_conv (fun t => t) 0.0005 98 0.0005 (by
        rw [show ((fun t : ℝ => t) 0.0005 - 0.0005 : ℝ) = 0 by norm_num]
        simp
        norm_num)]
  have hclamped : YieldSolver.newtonRaphsonPhaseClamped (fun t => t) 0.0005 0.5 = 0.001 := by
    unfold YieldSolver.newtonRaphsonPhaseClamped
    rw [show (100:ℕ) = 99 + 1 from rfl,
      newtonLoopClamped_succ_update (fun t => t) 0.0005 99 0.5 ha hb, derivEst_linear,
      hupd, min_eq_left (by norm_num : (0.0005:ℝ) ≤ 2),
      max_eq_left (by norm_num : (0.0005:ℝ) ≤ 0.001), newtonLoopClamped_fix]
  refine ⟨hcode, hclamped, ?_⟩
  rw [hcode]
  simp only [Set.mem_Icc, not_and_or]
  left
  norm_num

theorem insertQuote_perm (q : ZeroQuote) (l : List ZeroQuote) :
    (insertQuote q l).Perm (q :: l) := by
  induction l with
  | nil => exact List.Perm.refl _
  | cons p ps ih =>
    unfold insertQuote
    by_cases h : q.time ≤ p.time
    · rw [if_pos h]
    · rw [if_neg h]
      exact (ih.cons p).trans (List.Perm.swap q p ps)

theorem sortQuotes_perm (l : List ZeroQuote) : (sortQuotes l).Perm l := by
  induction l with
  | nil => exact List.Perm.refl _
  | cons q qs ih => exact (insertQuote_perm q (sortQuotes qs)).trans (ih.cons q)

theorem insertQuote_sorted (q : ZeroQuote) (l : List ZeroQuote)
    (h : List.Pairwise (fun a b : ZeroQuote => a.time ≤ b.time) l) :
    List.Pairwise (fun a b : ZeroQuote => a.time ≤ b.time) (insertQuote q l) := by
  induction l with
  | nil => simp [insertQuote]
  | cons p ps ih =>
    rw [List.pairwise_cons] at h
    unfold insertQuote
    by_cases hq : q.time ≤ p.time
    · rw [if_pos hq]
      refine List.Pairwise.cons ?_ (List.Pairwise.cons h.1 h.2)
      intro x hx
      rcases List.mem_cons.mp hx with hx | hx
      · rw [hx]
        exact hq
      · exact le_trans hq (h.1 x hx)
    · rw [if_neg hq]
      refine List.Pairwise.cons ?_ (ih h.2)
      intro x hx
      rcases List.mem_cons.mp ((insertQuote_perm q ps).mem_iff.mp hx) with hx' | hx'
      · rw [hx']
        exact le_of_lt (not_le.mp hq)
      · exact h.1 x hx'

theorem sortQuotes_sorted (l : List ZeroQuote) :
    List.Pairwise (fun a b : ZeroQuote => a.time ≤ b.time) (sortQuotes l) := by
  induction l with
  | nil => simp [sortQuotes]
  | cons q qs ih => exact insertQuote_sorted q (sortQuotes qs) ih

theorem dbl_bad_iff (x : Dbl) : x.bad = true ↔ x = .nonfinite ∨ x.val ≤ 0 := by
  cases x <;> simp [Dbl.bad, Dbl.val]

theorem dbl_good (x : Dbl) (h : ¬x.bad = true) : 0 < x.val := by
  cases x with
  | fin a =>
    simp only [Dbl.bad, decide_eq_true_eq] at h
    simpa [Dbl.val] using lt_of_not_le h
  | nonfinite => exact absurd rfl h

/-- C7 (amended): bootstrapped construction fails with InvalidArgument
exactly when the quote sequence is empty or some quote has a non-finite or
non-positive time or discount factor; on success the stored quotes are the
input quotes reordered, every stored quote has time > 0 and discount
factor > 0 (the upper bound df ≤ 1 is NOT validated), and the storage is
sorted by nondecreasing (not necessarily strictly increasing) time. -/
theorem c7_bootstrapped_construction (quotes : List (Dbl × Dbl)) :
    (mkBootstrapped quotes = .error .invalidArgument ↔
      quotes = [] ∨ ∃ q ∈ quotes,
        q.1 = .nonfinite ∨ q.1.val ≤ 0 ∨ q.2 = .nonfinite ∨ q.2.val ≤ 0) ∧
    (∀ c, mkBootstrapped quotes = .ok c →
      (∀ z ∈ c.boot, 0 < z.time ∧ 0 < z.df) ∧
      List.Pairwise (fun a b : ZeroQuote => a.time ≤ b.time) c.boot ∧
      c.boot.Perm (quotes.map (fun q => ⟨q.1.val, q.2.val⟩))) := by
  unfold mkBootstrapped
  by_cases hE : quotes.isEmpty = true
  · rw [if_pos hE]
    refine ⟨⟨fun _ => Or.inl (List.isEmpty_iff.mp hE), fun _ => rfl⟩, ?_⟩
    intro c hc
    exact absurd hc (by simp)
  · rw [if_neg hE]
    by_cases hA : quotes.any (fun q => q.1.bad || q.2.bad) = true
    · rw [if_pos hA]
      refine ⟨⟨fun _ => ?_, fun _ => rfl⟩, ?_⟩
      · rcases List.any_eq_true.mp hA with ⟨q, hq, hbad⟩
        refine Or.inr ⟨q, hq, ?_⟩
        rcases Bool.or_eq_true_iff.mp hbad with hb | hb
        · rcases (dbl_bad_iff q.1).mp hb with h | h
          · exact Or.inl h
          · exact Or.inr (Or.inl h)
        · rcases (dbl_bad_iff q.2).mp hb with h | h
          · exact Or.inr (Or.inr (Or.inl h))
          · exact Or.inr (Or.inr (Or.inr h))
      · intro c hc
        exact absurd hc (by simp)
    · rw [if_neg hA]
      constructor
      · constructor
        · intro h
          exact absurd h (by simp)
        · intro h
          rcases h with h | ⟨q, hq, h4⟩
          · exact absurd (by simp [h] : quotes.isEmpty = true) hE
          · refine absurd (List.any_eq_true.mpr ⟨q, hq, ?_⟩) hA
            rcases h4 with h | h | h | h
            · exact Bool.or_eq_true_iff.mpr (Or.inl ((dbl_bad_iff q.1).mpr (Or.inl h)))
            · exact Bool.or_eq_true_iff.mpr (Or.inl ((dbl_bad_iff q.1).mpr (Or.inr h)))
            · exact Bool.or_eq_true_iff.mpr (Or.inr ((dbl_bad_iff q.2).mpr (Or.inl h)))
            · exact Bool.or_eq_true_iff.mpr (Or.inr ((dbl_bad_iff q.2).mpr (Or.inr h)))
      · intro c hc
        have hc' : c = ⟨0, .Continuous, .ACT_365F,
            sortQuotes (quotes.map (fun q => ⟨q.1.val, q.2.val⟩))⟩ :=
          (Except.ok.injEq _ _).mp hc.symm
        subst hc'
        refine ⟨?_, sortQuotes_sorted _, sortQuotes_perm _⟩
        intro z hz
        rcases List.mem_map.mp ((sortQuotes_perm _).mem_iff.mp hz) with ⟨q, hq, rfl⟩
        have hnb : ¬(q.1.bad || q.2.bad) = true :=
          fun hb => hA (List.any_eq_true.mpr ⟨q, hq, hb⟩)
        rw [Bool.or_eq_true_iff] at hnb
        push_neg at hnb
        exact ⟨dbl_good q.1 hnb.1, dbl_good q.2 hnb.2⟩

theorem c7_witness :
    (∀ z ∈ ([⟨1, 1⟩] : List ZeroQuote), 0 < z.time ∧ 0 < z.df) ∧
    List.Pairwise (fun a b : ZeroQuote => a.time ≤ b.time)
      ([⟨1, 1⟩] : List ZeroQuote) := by
  have hok : mkBootstrapped [(Dbl.fin 1, Dbl.fin 1)] =
      .ok ⟨0, .Continuous, .ACT_365F, [⟨1, 1⟩]⟩ := by
    unfold mkBootstrapped
    rw [if_neg (by simp)]
    rw [if_neg (by
      simp only [List.any_cons, List.any_nil, Bool.or_false, Dbl.bad]
      rw [decide_eq_false (by norm_num : ¬((1:ℝ) ≤ 0))]
      simp)]
    simp [sortQuotes, insertQuote, Dbl.val]
  have h := (c7_bootstrapped_construction [(Dbl.fin 1, Dbl.fin 1)]).2 _ hok
  exact ⟨h.1, h.2.1⟩

theorem lowerBound_eq (x : ℝ) : ∀ (qs : List ZeroQuote) (j : ℕ), j ≤ qs.length →
    (∀ i, i < j → (qs.getD i ⟨0, 0⟩).time < x) →
    (j < qs.length → x ≤ (qs.getD j ⟨0, 0⟩).time) →
    lowerBound x qs = j := by
  intro qs
  induction qs with
  | nil =>
    intro j hj _ _
    have hj0 : j = 0 := Nat.le_zero.mp hj
    subst hj0
    rfl
  | cons q rest ih =>
    intro j hj hbefore hafter
    cases j with
    | zero =>
      have hx : x ≤ q.time := by simpa using hafter (by simp)
      rw [lowerBound, if_neg (not_lt.mpr hx)]
    | succ j' =>
      have hq : q.time < x := by simpa using hbefore 0 (Nat.succ_pos j')
      rw [lowerBound, if_pos hq,
        ih j' (by simpa using hj)
          (fun i hi => by simpa using hbefore (i + 1) (by omega))
          (fun h => by simpa using hafter (by simpa using h))]

theorem quotes_getD_mem (qs : List ZeroQuote) (i : ℕ) (hi : i < qs.length) :
    qs.getD i ⟨0, 0⟩ ∈ qs := by
  rw [List.getD_eq_getElem qs ⟨0, 0⟩ hi]
  exact List.getElem_mem hi

theorem quotes_sorted_lt (qs : List ZeroQuote)
    (hsort : List.Pairwise (fun a b : ZeroQuote => a.time < b.time) qs)
    (i j : ℕ) (hj : j < qs.length) (hij : i < j) :
    (qs.getD i ⟨0, 0⟩).time < (qs.getD j ⟨0, 0⟩).time := by
  have hi : i < qs.length := lt_trans hij hj
  rw [List.getD_eq_getElem qs ⟨0, 0⟩ hi, List.getD_eq_getElem qs ⟨0, 0⟩ hj]
  exact List.pairwise_iff_getElem.mp hsort i j hi hj hij

theorem quotes_sorted_le (qs : List ZeroQuote)
    (hsort : List.Pairwise (fun a b : ZeroQuote => a.time < b.time) qs)
    (i j : ℕ) (hj : j < qs.length) (hij : i ≤ j) :
    (qs.getD i ⟨0, 0⟩).time ≤ (qs.getD j ⟨0, 0⟩).time := by
  rcases Nat.lt_or_ge i j with h | h
  · exact le_of_lt (quotes_sorted_lt qs hsort i j hj h)
  · have : i = j := Nat.le_antisymm hij h
    rw [this]

theorem bootDfVal_first (qs : List ZeroQuote) (x : ℝ) (hx0 : 0 < x)
    (hx : x ≤ (qs.getD 0 ⟨0, 0⟩).time) :
    bootDfVal qs x = (qs.getD 0 ⟨0, 0⟩).df := by
  unfold bootDfVal
  rw [if_neg (not_le.mpr hx0)]
  have hlb : lowerBound x qs = 0 :=
    lowerBound_eq x qs 0 (Nat.zero_le _) (fun i hi => absurd hi (Nat.not_lt_zero i))
      (fun _ => hx)
  rw [hlb]
  rw [if_pos rfl]

theorem bootDfVal_last (qs : List ZeroQuote) (hne : qs ≠ [])
    (hsort : List.Pairwise (fun a b : ZeroQuote => a.time < b.time) qs)
    (hdf : ∀ z ∈ qs, 0 < z.df) (x : ℝ) (hx0 : 0 < x)
    (hx : (qs.getD (qs.length - 1) ⟨0, 0⟩).time ≤ x) :
    bootDfVal qs x = (qs.getD (qs.length - 1) ⟨0, 0⟩).df := by
  have hlen : 0 < qs.length := List.length_pos.mpr hne
  rcases eq_or_lt_of_le hx with heq | hlt
  · rcases Nat.lt_or_ge 1 qs.length with hlen2 | hlen1
    · have hlb : lowerBound x qs = qs.length - 1 := by
        refine lowerBound_eq x qs (qs.length - 1) (by omega) ?_ ?_
        · intro i hi
          exact lt_of_lt_of_le
            (quotes_sorted_lt qs hsort i (qs.length - 1) (by omega) hi) hx
        · intro _
          exact le_of_eq heq.symm
      unfold bootDfVal
      rw [if_neg (not_le.mpr hx0)]
      rw [hlb, if_neg (by omega : ¬(qs.length - 1 = 0)),
        if_neg (by omega : ¬(qs.length - 1 = qs.length))]
      have hpdf : 0 < (qs.getD (qs.length - 1 - 1) ⟨0, 0⟩).df :=
        hdf _ (quotes_getD_mem qs _ (by omega))
      have hqdf : 0 < (qs.getD (qs.length - 1) ⟨0, 0⟩).df :=
        hdf _ (quotes_getD_mem qs _ (by omega))
      have htlt : (qs.getD (qs.length - 1 - 1) ⟨0, 0⟩).time <
          (qs.getD (qs.length - 1) ⟨0, 0⟩).time :=
        quotes_sorted_lt qs hsort _ _ (by omega) (by omega)
      rw [if_neg (by push_neg; exact ⟨hpdf, hqdf⟩), if_neg (by exact ne_of_gt htlt)]
      have hw : (x - (qs.getD (qs.length - 1 - 1) ⟨0, 0⟩).time) /
          ((qs.getD (qs.length - 1) ⟨0, 0⟩).time -
            (qs.getD (qs.length - 1 - 1) ⟨0, 0⟩).time) = 1 := by
        rw [← heq]
        exact div_self (by linarith)
      rw [hw]
      rw [show Real.log (qs.getD (qs.length - 1 - 1) ⟨0, 0⟩).df +
          1 * (Real.log (qs.getD (qs.length - 1) ⟨0, 0⟩).df -
            Real.log (qs.getD (qs.length - 1 - 1) ⟨0, 0⟩).df) =
          Real.log (qs.getD (qs.length - 1) ⟨0, 0⟩).df by ring]
      exact Real.exp_log hqdf
    · have h0 : qs.length - 1 = 0 := by omega
      rw [h0] at heq ⊢
      exact bootDfVal_first qs x hx0 (le_of_eq heq.symm)
  · have hlb : lowerBound x qs = qs.length := by
      refine lowerBound_eq x qs qs.length le_rfl ?_ (fun h => absurd h (lt_irrefl _))
      intro i hi
      exact lt_of_le_of_lt
        (quotes_sorted_le qs hsort i (qs.length - 1) (by omega) (by omega)) hlt
    unfold bootDfVal
    rw [if_neg (not_le.mpr hx0)]
    rw [hlb, if_neg (by omega : ¬(qs.length = 0)), if_pos rfl]

theorem bootDfVal_interp (qs : List ZeroQuote)
    (hsort : List.Pairwise (fun a b : ZeroQuote => a.time < b.time) qs)
    (hdf : ∀ z ∈ qs, 0 < z.df) (j : ℕ) (x : ℝ) (hx0 : 0 < x)
    (hj1 : j + 1 < qs.length)
    (hxl : (qs.getD j ⟨0, 0⟩).time < x)
    (hxr : x < (qs.getD (j + 1) ⟨0, 0⟩).time) :
    bootDfVal qs x = Real.exp (Real.log (qs.getD j ⟨0, 0⟩).df +
      ((x - (qs.getD j ⟨0, 0⟩).time) /
        ((qs.getD (j + 1) ⟨0, 0⟩).time - (qs.getD j ⟨0, 0⟩).time)) *
      (Real.log (qs.getD (j + 1) ⟨0, 0⟩).df - Real.log (qs.getD j ⟨0, 0⟩).df)) := by
  have hlb : lowerBound x qs = j + 1 := by
    refine lowerBound_eq x qs (j + 1) (by omega) ?_ (fun _ => le_of_lt hxr)
    intro i hi
    exact lt_of_le_of_lt (quotes_sorted_le qs hsort i j (by omega) (by omega)) hxl
  unfold bootDfVal
  rw [if_neg (not_le.mpr hx0)]
  rw [hlb, if_neg (by omega : ¬(j + 1 = 0)),
    if_neg (by omega : ¬(j + 1 = qs.length))]
  have hpdf : 0 < (qs.getD (j + 1 - 1) ⟨0, 0⟩).df :=
    hdf _ (quotes_getD_mem qs _ (by omega))
  have hqdf : 0 < (qs.getD (j + 1) ⟨0, 0⟩).df :=
    hdf _ (quotes_getD_mem qs _ hj1)
  have htlt : (qs.getD (j + 1 - 1) ⟨0, 0⟩).time < (qs.getD (j + 1) ⟨0, 0⟩).time :=
    quotes_sorted_lt qs hsort _ _ hj1 (by omega)
  rw [if_neg (by push_neg; exact ⟨hpdf, hqdf⟩), if_neg (ne_of_gt htlt)]
  have hj0 : j + 1 - 1 = j := by omega
  rw [hj0]

theorem c7_counterexample :
    mkBootstrapped [(Dbl.fin 1, Dbl.fin 1.5)] =
      .ok ⟨0, .Continuous, .ACT_365F, [⟨1, 1.5⟩]⟩ ∧
    ¬((1.5:ℝ) ≤ 1) := by
  constructor
  · unfold mkBootstrapped
    rw [if_neg (by simp)]
    rw [if_neg (by
      simp only [List.any_cons, List.any_nil, Bool.or_false, Dbl.bad]
      rw [decide_eq_false (by norm_num : ¬((1:ℝ) ≤ 0)),
        decide_eq_false (by norm_num : ¬((1.5:ℝ) ≤ 0))]
      simp)]
    simp [sortQuotes, insertQuote, Dbl.val]
  · norm_num

theorem bootDfVal_scenarioC :
    bootDfVal [⟨0.5, 0.98⟩, ⟨1, 0.95⟩, ⟨2, 0.9⟩] 1.5 =
      Real.exp (0.5 * (Real.log 0.95 + Real.log 0.9)) := by
  have hlb : lowerBound 1.5 [⟨0.5, 0.98⟩, ⟨(1:ℝ), 0.95⟩, ⟨2, 0.9⟩] = 2 := by
    simp only [lowerBound]
    norm_num
  unfold bootDfVal
  rw [if_neg (by norm_num : ¬((1.5:ℝ) ≤ 0))]
  rw [hlb]
  rw [if_neg (by norm_num : ¬(2 = 0)),
    if_neg (by decide :
      ¬(2 = ([⟨0.5, 0.98⟩, ⟨1, 0.95⟩, ⟨2, 0.9⟩] : List ZeroQuote).length))]
  simp only [List.getD_cons_succ, List.getD_cons_zero]
  rw [if_neg (by norm_num : ¬((0.95:ℝ) ≤ 0 ∨ (0.9:ℝ) ≤ 0)),
    if_neg (by norm_num : ¬((2:ℝ) = 1))]
  congr 1
  rw [show ((1.5:ℝ) - 1) / ((2:ℝ) - 1) = 0.5 by norm_num]
  ring

theorem mval_ne_zero (m : Compounding) (h : m ≠ .Continuous) : m.mval ≠ 0 := by
  cases m <;> simp [Compounding.mval] at h ⊢

/-- C2: df fails with InvalidArgument exactly on a non-finite time; every
finite t ≤ 0 yields 1; flat mode gives exp(-y t) under Continuous and
(1+y/m)^(-m t) under a discrete convention; in bootstrapped mode a query
at or below the first quote time or at or above the last returns the
boundary discount factor, a query strictly between adjacent quote times is
log-linearly interpolated, and the quotes {(0.5,0.98),(1,0.95),(2,0.9)}
give df(1.5) = exp(0.5(ln 0.95 + ln 0.9)). -/
theorem c2_discount_factor (c : DiscountCurve) :
    (DiscountCurve.df c .nonfinite = .error .invalidArgument) ∧
    (∀ x : ℝ, ∃ v, DiscountCurve.df c (.fin x) = .ok v) ∧
    (∀ x : ℝ, x ≤ 0 → DiscountCurve.df c (.fin x) = .ok 1) ∧
    (c.boot = [] → c.m = .Continuous → ∀ x : ℝ, 0 < x →
      DiscountCurve.df c (.fin x) = .ok (Real.exp (-(c.y * x)))) ∧
    (c.boot = [] → c.m ≠ .Continuous → ∀ x : ℝ, 0 < x →
      DiscountCurve.df c (.fin x) = .ok ((1 + c.y / c.m.mval) ^ (-(c.m.mval * x)))) ∧
    (c.boot ≠ [] → ∀ x : ℝ, 0 < x → x ≤ (c.boot.getD 0 ⟨0, 0⟩).time →
      DiscountCurve.df c (.fin x) = .ok ((c.boot.getD 0 ⟨0, 0⟩).df)) ∧
    (c.boot ≠ [] →
      List.Pairwise (fun a b : ZeroQuote => a.time < b.time) c.boot →
      (∀ z ∈ c.boot, 0 < z.df) → ∀ x : ℝ, 0 < x →
      (c.boot.getD (c.boot.length - 1) ⟨0, 0⟩).time ≤ x →
      DiscountCurve.df c (.fin x) =
        .ok ((c.boot.getD (c.boot.length - 1) ⟨0, 0⟩).df)) ∧
    (c.boot ≠ [] →
      List.Pairwise (fun a b : ZeroQuote => a.time < b.time) c.boot →
      (∀ z ∈ c.boot, 0 < z.df) → ∀ (j : ℕ) (x : ℝ), 0 < x →
      j + 1 < c.boot.length →
      (c.boot.getD j ⟨0, 0⟩).time < x → x < (c.boot.getD (j + 1) ⟨0, 0⟩).time →
      DiscountCurve.df c (.fin x) =
        .ok (Real.exp (Real.log (c.boot.getD j ⟨0, 0⟩).df +
          ((x - (c.boot.getD j ⟨0, 0⟩).time) /
            ((c.boot.getD (j + 1) ⟨0, 0⟩).time - (c.boot.getD j ⟨0, 0⟩).time)) *
          (Real.log (c.boot.getD (j + 1) ⟨0, 0⟩).df -
            Real.log (c.boot.getD j ⟨0, 0⟩).df)))) ∧
    DiscountCurve.df ⟨0, .Continuous, .ACT_365F, [⟨0.5, 0.98⟩, ⟨1, 0.95⟩, ⟨2, 0.9⟩]⟩
        (.fin 1.5) =
      .ok (Real.exp (0.5 * (Real.log 0.95 + Real.log 0.9))) := by
  have hboot : ∀ (hne : c.boot ≠ []) (x : ℝ),
      DiscountCurve.df c (.fin x) = .ok (bootDfVal c.boot x) := by
    intro hne x
    unfold DiscountCurve.df
    dsimp only
    rw [if_neg (fun h => hne (List.isEmpty_iff.mp h))]
  have hflat : ∀ (he : c.boot = []) (x : ℝ),
      DiscountCurve.df c (.fin x) = .ok (flatDfVal c.y c.m x) := by
    intro he x
    unfold DiscountCurve.df
    dsimp only
    rw [if_pos (List.isEmpty_iff.mpr he)]
  refine ⟨rfl, ?_, ?_, ?_, ?_, ?_, ?_, ?_, ?_⟩
  · intro x
    by_cases he : c.boot = []
    · exact ⟨_, hflat he x⟩
    · exact ⟨_, hboot he x⟩
  · intro x hx
    by_cases he : c.boot = []
    · rw [hflat he x]
      unfold flatDfVal
      rw [if_pos hx]
    · rw [hboot he x]
      unfold bootDfVal
      rw [if_pos hx]
  · intro he hm x hx
    rw [hflat he x]
    unfold flatDfVal
    rw [if_neg (not_le.mpr hx), if_pos hm, neg_mul]
  · intro he hm x hx
    rw [hflat he x]
    unfold flatDfVal
    rw [if_neg (not_le.mpr hx), if_neg hm, if_neg (mval_ne_zero c.m hm)]
  · intro hne x hx0 hx
    rw [hboot hne x, bootDfVal_first c.boot x hx0 hx]
  · intro hne hsort hdf x hx0 hx
    rw [hboot hne x, bootDfVal_last c.boot hne hsort hdf x hx0 hx]
  · intro hne hsort hdf j x hx0 hj1 hxl hxr
    rw [hboot hne x, bootDfVal_interp c.boot hsort hdf j x hx0 hj1 hxl hxr]
  · show Except.ok (bootDfVal [⟨0.5, 0.98⟩, ⟨1, 0.95⟩, ⟨2, 0.9⟩] 1.5) = _
    rw [bootDfVal_scenarioC]

theorem c2_witness :
    DiscountCurve.df ⟨0.05, .Annual, .ACT_365F, []⟩ (.fin 0) = .ok 1 :=
  (c2_discount_factor ⟨0.05, .Annual, .ACT_365F, []⟩).2.2.1 0 le_rfl

end Quant
